import Mathlib

/-!
Verification of the parametron query/filter builder.

The definitions below are a shallow embedding of `src/Parametron.ts`
(the current, executor-based version of the class; the legacy
chipmunk-based version that precedes it in the same file is embedded
where a claim refers to it).  JavaScript dynamic values are modelled by
`JVal`, JavaScript objects by ordered association lists, and the
asynchronous fire/executor cycle by an explicit event system
(`ParamSys`) in which issuing a fire and the later settlement of its
executor promise are separate steps, as they are on the JS event loop.
-/

namespace Parametron

/-- Primitive JavaScript values that can occur inside a filter-value
array (for the `in` / `not_in` methods arrays hold scalars only). -/
inductive Prim where
  | str (s : String)
  | num (n : Int)
  | bool (b : Bool)
  | null
  | undefined
deriving DecidableEq, Repr

/-- Dynamic JavaScript values as they occur in filter tuples, params and
result objects: scalars, scalar arrays, `null` and `undefined`. -/
inductive JVal where
  | str (s : String)
  | num (n : Int)
  | bool (b : Bool)
  | list (xs : List Prim)
  | null
  | undefined
deriving DecidableEq, Repr

/-- lodash `isNull(v) || isUndefined(v)`. -/
def JVal.isNullOrUndefined : JVal → Bool
  | .null => true
  | .undefined => true
  | _ => false

/-- JavaScript truthiness, as used by lodash `compact`. -/
def JVal.truthy : JVal → Bool
  | .str s => !(s == "")
  | .num n => !(n == 0)
  | .bool b => b
  | .list _ => true
  | .null => false
  | .undefined => false

/-- An ordered JavaScript object: keys in insertion order. -/
abbrev JObj := List (String × JVal)

/-- Property lookup on a JavaScript object. -/
def lookupKey (p : JObj) (k : String) : Option JVal :=
  match p.find? (fun kv => kv.1 == k) with
  | some kv => some kv.2
  | none => none

/-- Property assignment: updates an existing key in place, otherwise
appends it (JS insertion-order semantics). -/
def setKey (p : JObj) (k : String) (v : JVal) : JObj :=
  if p.any (fun kv => kv.1 == k) then
    p.map (fun kv => if kv.1 == k then (k, v) else kv)
  else
    p ++ [(k, v)]

/-- The `delete obj[k]` operation. -/
def removeKey (p : JObj) (k : String) : JObj :=
  p.filter (fun kv => !(kv.1 == k))

/-- lodash `pick(obj, keys)`: the sub-object with the listed keys, in the
order the keys are listed. -/
def pickKeys (p : JObj) (ks : List String) : JObj :=
  ks.foldl (fun acc k =>
    match lookupKey p k with
    | some v => acc ++ [(k, v)]
    | none => acc) []

/-- lodash `merge({}, base, patch)` restricted to the flat scalar
objects that occur as params: right-biased key update, where source
values of `undefined` do not overwrite an existing destination value. -/
def mergeObj (base patch : JObj) : JObj :=
  patch.foldl (fun acc kv =>
    if kv.2 == JVal.undefined && acc.any (fun kv' => kv'.1 == kv.1) then acc
    else setKey acc kv.1 kv.2) base

/-- lodash `pickBy(obj, v => !isNull(v) && !isUndefined(v))`. -/
def pickByNotNil (p : JObj) : JObj :=
  p.filter (fun kv => !(JVal.isNullOrUndefined kv.2))

/-- The mutable `data` of a `Parametron` instance (current version of
the class).  `view` holds the dynamic `page`/`per`/`sort`/`order`
properties that `prepare` copies onto `this.data` via `extend`; they are
not declared fields of `IParametronData`. -/
structure ParametronData where
  reqId : Nat
  running : Bool
  params : JObj
  filters : List (List JVal)
  persistentFilters : List (List JVal)
  totalCount : Int
  totalPages : Int
  objects : List JVal
  aggregations : JObj
  view : JObj
deriving DecidableEq, Repr

/-- The `initialParams` constant of the source. -/
def initialParams : JObj :=
  [("page", JVal.num 1), ("per", JVal.num 24),
   ("sort", JVal.str "created_at"), ("order", JVal.str "desc")]

/-- The `data` produced by the constructor:
`cloneDeep(mergeAll initialData emptyResults (params := initialParams))`. -/
def initialData : ParametronData :=
  { reqId := 0
    running := false
    params := initialParams
    filters := []
    persistentFilters := []
    totalCount := 0
    totalPages := 0
    objects := []
    aggregations := []
    view := [] }

/-- JS truthiness of an optional string argument (`undefined` and the
empty string are both falsy). -/
def strTruthy : Option String → Bool
  | none => false
  | some s => !(s == "")

/-- The `filterByAttributeMethod` predicate factory of the source,
including its JS truthiness tests on the two optional arguments. -/
def filterByAttributeMethod (attr meth : Option String) (f : List JVal) : Bool :=
  if strTruthy attr && strTruthy meth then
    (f.getD 0 JVal.undefined == JVal.str (attr.getD ""))
      && (f.getD 1 JVal.undefined == JVal.str (meth.getD ""))
  else if strTruthy attr then f.getD 0 JVal.undefined == JVal.str (attr.getD "")
  else if strTruthy meth then f.getD 1 JVal.undefined == JVal.str (meth.getD "")
  else true

/-- `dropFilters(attribute?, method?)`: lodash `remove` keeps the
elements that do not match the predicate. -/
def dropFilters (attr meth : Option String) (st : ParametronData) : ParametronData :=
  { st with filters := st.filters.filter (fun f => !(filterByAttributeMethod attr meth f)) }

/-- `getFilters(attribute?, method?)`. -/
def getFilters (attr meth : Option String) (st : ParametronData) : List (List JVal) :=
  st.filters.filter (filterByAttributeMethod attr meth)

/-- `getFilterValues(attribute, method)`: values of the first matching
filter; a single value is returned unwrapped, several as an array
(modelled by `MultiVal.multiple`), none as `undefined`. -/
inductive MultiVal where
  | single (v : JVal)
  | multiple (vs : List JVal)
deriving DecidableEq, Repr

/-- Body of `getFilterValues`: `slice(first(applied), 2)` is `[]` when
no filter matched, and `first(values)` is `undefined` on `[]`. -/
def getFilterValues (attr meth : String) (st : ParametronData) : MultiVal :=
  let applied := st.filters.filter (filterByAttributeMethod (some attr) (some meth))
  let values := (applied.head?.getD []).drop 2
  if values.length > 1 then .multiple values else .single (values.headD JVal.undefined)

/-- The `switch` of `setFilter`: clears the related method family
before the new condition is appended, branch for branch as in the
source. -/
def setFilterDropPhase (attr meth : String) (st : ParametronData) : ParametronData :=
  if meth == "q" then dropFilters (some "_") none st
  else if meth == "match" then dropFilters (some attr) (some "match") st
  else if meth == "eq" || meth == "ne" then
    dropFilters (some attr) (some "ne") (dropFilters (some attr) (some "eq") st)
  else if meth == "range" || meth == "in" || meth == "not_in" then
    dropFilters (some attr) (some "not_in")
      (dropFilters (some attr) (some "in")
        (dropFilters (some attr) (some "range") st))
  else if meth == "exist" || meth == "not_exist" then
    dropFilters (some attr) (some "not_exist") (dropFilters (some attr) (some "exist") st)
  else st

/-- `setFilter(attribute, method, value1?, value2?)`: clears the related
method family, appends the trimmed condition tuple and resets
`params.page` to 1. -/
def setFilter (attr meth : String) (v1 v2 : JVal) (st : ParametronData) : ParametronData :=
  let st1 := setFilterDropPhase attr meth st
  let condition :=
    [JVal.str attr, JVal.str meth, v1, v2].filter (fun v => !(JVal.isNullOrUndefined v))
  { st1 with
    filters := st1.filters ++ [condition]
    params := setKey st1.params "page" (JVal.num 1) }

/-- `setPersistentFilter(attribute, method, value1?, value2?)`: pushes
`compact([attribute, method, value1, value2])`; lodash `compact` keeps
only truthy entries. -/
def setPersistentFilter (attr meth : String) (v1 v2 : JVal) (st : ParametronData) : ParametronData :=
  { st with
    persistentFilters :=
      st.persistentFilters ++
        [([JVal.str attr, JVal.str meth, v1, v2].filter JVal.truthy)] }

/-- `setParams(params)`: merge into `data.params`, then drop keys whose
merged value is null/undefined. -/
def setParams (patch : JObj) (st : ParametronData) : ParametronData :=
  { st with params := pickByNotNil (mergeObj st.params patch) }

/-- `dropParams(...keys)`: the source iterates `for (let key in keys)`,
which enumerates the argument array's own keys — the index strings
`"0"`, `"1"`, … — and deletes those from `params`, not the named keys. -/
def dropParams (keys : List String) (st : ParametronData) : ParametronData :=
  { st with
    params := (List.range keys.length).foldl (fun p i => removeKey p (toString i)) st.params }

/-- `pristine()`. -/
def pristine (st : ParametronData) : Bool :=
  (getFilters none none st).isEmpty

/-- `prepare()`: `extend(this.data, running/reqId, pick(params, page per
sort order), emptyResults)`, applied left to right. -/
def prepare (st : ParametronData) : ParametronData :=
  { st with
    running := true
    reqId := st.reqId + 1
    view := mergeObj st.view (pickKeys st.params ["page", "per", "sort", "order"])
    totalCount := 0
    totalPages := 0
    objects := []
    aggregations := [] }

/-- Pagination section of an executor result; either field may be
absent, in which case `get(result, ..., 0)` falls back to `0`. -/
structure PaginationInfo where
  total_count : Option Int
  total_pages : Option Int
deriving DecidableEq, Repr

/-- A successful executor result (the fields `fire` reads). -/
structure ExecSuccess where
  objects : List JVal
  aggregations : JObj
  pagination : Option PaginationInfo
deriving DecidableEq, Repr

/-- How one executor call eventually settles. -/
inductive ExecResult where
  | success (r : ExecSuccess)
  | failure (e : String)
deriving DecidableEq, Repr

/-- `get(result, pagination.total_count, 0)`. -/
def totalCountOf (r : ExecSuccess) : Int :=
  match r.pagination with
  | some p => p.total_count.getD 0
  | none => 0

/-- `get(result, pagination.total_pages, 0)`. -/
def totalPagesOf (r : ExecSuccess) : Int :=
  match r.pagination with
  | some p => p.total_pages.getD 0
  | none => 0

/-- The request body `fire` builds:
`merge({}, params, (search := (filters := persistent ++ filters)), stats)`. -/
structure RequestBody where
  params : JObj
  searchFilters : List (List JVal)
  stats : Option String
deriving DecidableEq, Repr

/-- Body construction from the current data, as in `fire`. -/
def buildBody (stats : Option String) (st : ParametronData) : RequestBody :=
  { params := st.params
    searchFilters := st.persistentFilters ++ st.filters
    stats := stats }

/-- The `then` handler of `fire` (success path): `extend(this.data, ...)`
applied unconditionally to the shared data, whatever `reqId` now is. -/
def applySuccess (r : ExecSuccess) (st : ParametronData) : ParametronData :=
  { st with
    running := false
    objects := r.objects
    aggregations := r.aggregations
    totalCount := totalCountOf r
    totalPages := totalPagesOf r }

/-- The `catch` handler of `fire`: only `running` is touched. -/
def applyFailure (st : ParametronData) : ParametronData :=
  { st with running := false }

/-- What the promise returned by `api.fire` reports to its caller. -/
inductive FireSignal where
  | resolvedData (snapshot : ParametronData)
  | rejected (e : String)
deriving DecidableEq, Repr

/-- An in-flight executor call: the generation (`reqId` at issue), the
body that was sent, and how the call will eventually settle. -/
structure PendingFire where
  id : Nat
  body : RequestBody
  outcome : ExecResult
deriving DecidableEq, Repr

/-- The instance together with the event-loop view of its in-flight
executor calls and the settlements its fire promises have reported. -/
structure ParamSys where
  st : ParametronData
  pending : List PendingFire
  log : List (Nat × FireSignal)
deriving DecidableEq, Repr

/-- `api.fire()`: `instance.prepare()` followed by `instance.fire()`,
which snapshots the body and starts the executor call.  The call stays
pending until a later `settlePending` event. -/
def apiFire (stats : Option String) (outcome : ExecResult) (sys : ParamSys) : ParamSys :=
  let st1 := prepare sys.st
  { st := st1
    pending := sys.pending ++ [{ id := st1.reqId, body := buildBody stats st1, outcome }]
    log := sys.log }

/-- Settlement of the `i`-th in-flight executor call.  This is the
source's `then`/`catch` pair: a success runs `applySuccess` on the
shared data — there is no comparison of the call's generation with the
current `reqId` — and resolves the fire promise with `this.data`; a
failure sets `running` to false and rejects with the error. -/
def settlePending (i : Nat) (sys : ParamSys) : ParamSys :=
  match sys.pending[i]? with
  | none => sys
  | some p =>
    match p.outcome with
    | .success r =>
      let st' := applySuccess r sys.st
      { st := st'
        pending := sys.pending.eraseIdx i
        log := sys.log ++ [(p.id, .resolvedData st')] }
    | .failure e =>
      { st := applyFailure sys.st
        pending := sys.pending.eraseIdx i
        log := sys.log ++ [(p.id, .rejected e)] }

/-- Construction options of the current class (`IParametronOpts`).  The
`executor` slot is `none` when the required executor is missing. -/
structure ParametronOpts where
  executor : Option (RequestBody → ExecResult)
  stats : Option String
  schema : Option String

/-- The current constructor: `this.opts = cloneDeep(opts); this.data =
cloneDeep(...)`.  It contains no validation and no `throw`, so in the
`Except` codomain (which records the possibility of raising) it always
returns `.ok`. -/
def construct (opts : ParametronOpts) : Except String (ParametronOpts × ParametronData) :=
  .ok (opts, initialData)

/-- Options of the legacy chipmunk-based constructor that are relevant
to its validation check. -/
structure LegacyOpts where
  model : Option String
deriving DecidableEq, Repr

/-- lodash `isEmpty` on an optional string: `undefined` and the empty
string are empty. -/
def isEmptyStr : Option String → Bool
  | none => true
  | some s => s == ""

/-- The legacy constructor check: `if (isEmpty(this.opts.model)) throw
new Error(...)`; the model option is validated, the executor concept
does not exist there. -/
def constructLegacy (opts : LegacyOpts) : Except String ParametronData :=
  if isEmptyStr opts.model then .error "parametron: model option missing"
  else .ok initialData

/-- Boolean success test on `Except`. -/
def exceptOk {ε α : Type} : Except ε α → Bool
  | .ok _ => true
  | .error _ => false

/-- Modelled from the spec: result objects are opaque records carrying
an identifier (`setFixedOrder` and the fixed-order re-sort are absent
from the repository's source; everything in this section follows
sections 3, 4.1 and 4.2 of the spec).  The payload stands for the rest
of the record and lets stability be observed. -/
structure SObj where
  id : Int
  payload : String
deriving DecidableEq, Repr

/-- Modelled from the spec: the position of an identifier in the
`fixedOrder` list; an absent identifier gets the index `ids.length`,
which is larger than every present index, i.e. the spec's index of
infinity. -/
def fixedOrderIndex : List Int → Int → Nat
  | [], _ => 0
  | y :: ys, x => if x = y then 0 else fixedOrderIndex ys x + 1

/-- Stable sort of a list by a bounded `Nat` key, as a counting sort:
the concatenation of the key classes in ascending key order.  `filter`
preserves relative order inside each class, which makes the sort
stable. -/
def stableCountingSort {α : Type} (key : α → Nat) : Nat → List α → List α
  | 0, _ => []
  | n + 1, l => stableCountingSort key n l ++ l.filter (fun a => key a == n)

/-- Modelled from the spec: the fixed-order re-sort — a stable sort of
the fetched objects by the position of each object's identifier in the
fixed-order list, absent identifiers sorting to the end. -/
def fixedOrderSort (ids : List Int) (objs : List SObj) : List SObj :=
  stableCountingSort (fun o => fixedOrderIndex ids o.id) (ids.length + 1) objs

/-- Modelled from the spec: the slice of QueryState that the fixed-order
feature touches (`fixedOrder` is a field the source's data does not
have). -/
structure FixedOrderStore where
  params : JObj
  fixedOrder : Option (List Int)
  objects : List SObj
deriving DecidableEq, Repr

/-- Modelled from the spec: `setFixedOrder(ids)` installs the override
and forces `sort=null, order=null, page=1, per=<large page size>`
through the `setParams` merge-and-prune rule; 1000 stands in for the
large page size. -/
def setFixedOrder (ids : List Int) (s : FixedOrderStore) : FixedOrderStore :=
  { s with
    fixedOrder := some ids
    params := pickByNotNil (mergeObj s.params
      [("sort", JVal.null), ("order", JVal.null),
       ("page", JVal.num 1), ("per", JVal.num 1000)]) }

/-- Modelled from the spec: the success path of a fire applies the
fixed-order re-sort to the returned objects when an override is active,
and stores them unchanged otherwise. -/
def specFireSuccess (raw : List SObj) (s : FixedOrderStore) : FixedOrderStore :=
  { s with
    objects :=
      match s.fixedOrder with
      | some ids => fixedOrderSort ids raw
      | none => raw }

/-- Modelled from the spec: the portable state token captures
`params`, `filters` and `persistentFilters` (`serialize`/`deserialize`
are absent from the repository's source).  The spec allows base64
encoded JSON or an equivalent reversible encoding; here the token is a
character list in a length-prefixed textual encoding. -/
structure SerTriple where
  params : JObj
  filters : List (List JVal)
  persistentFilters : List (List JVal)
deriving DecidableEq, Repr

/-- The empty structure that `deserialize` degrades to on malformed
input. -/
def emptySer : SerTriple := ⟨[], [], []⟩

/-- Unary length prefix terminated by a colon. -/
def natEnc (k : Nat) : List Char := List.replicate k '1' ++ [':']

/-- Token encoding of a primitive value. -/
def primEnc : Prim → List Char
  | .str s => 's' :: (natEnc s.length ++ s.data)
  | .num n => if 0 ≤ n then 'p' :: natEnc n.toNat else 'n' :: natEnc (-n).toNat
  | .bool true => ['t']
  | .bool false => ['f']
  | .null => ['z']
  | .undefined => ['u']

/-- Concatenated encoding of a primitive list (the terminator is written
by the caller). -/
def primsEnc : List Prim → List Char
  | [] => []
  | p :: ps => primEnc p ++ primsEnc ps

/-- Token encoding of a dynamic value; arrays are bracketed by an `l`
tag and an `e` terminator. -/
def jvalEnc : JVal → List Char
  | .str s => 's' :: (natEnc s.length ++ s.data)
  | .num n => if 0 ≤ n then 'p' :: natEnc n.toNat else 'n' :: natEnc (-n).toNat
  | .bool true => ['t']
  | .bool false => ['f']
  | .null => ['z']
  | .undefined => ['u']
  | .list xs => 'l' :: (primsEnc xs ++ ['e'])

/-- Concatenated encoding of the values of one filter tuple. -/
def jvalsEnc : List JVal → List Char
  | [] => []
  | v :: vs => jvalEnc v ++ jvalsEnc vs

/-- Encoding of a filter list: each tuple's values followed by an `e`,
the list terminator being written by the caller. -/
def filtersEnc : List (List JVal) → List Char
  | [] => []
  | f :: fs => jvalsEnc f ++ 'e' :: filtersEnc fs

/-- Encoding of one params entry: length-prefixed key, then the value. -/
def pairEnc (kv : String × JVal) : List Char :=
  natEnc kv.1.length ++ kv.1.data ++ jvalEnc kv.2

/-- Concatenated encoding of the params entries. -/
def pairsEnc : JObj → List Char
  | [] => []
  | kv :: rest => pairEnc kv ++ pairsEnc rest

/-- Full token of a `SerTriple`: params section, filters section,
persistent-filters section, with their terminators. -/
def serializeTriple (t : SerTriple) : List Char :=
  pairsEnc t.params ++ 'e' :: (filtersEnc t.filters ++ 'E' :: (filtersEnc t.persistentFilters ++ ['E']))

/-- Modelled from the spec: `serialize()` captures the current
`params`/`filters`/`persistentFilters` of the state as a portable
token. -/
def serializeState (st : ParametronData) : List Char :=
  serializeTriple ⟨st.params, st.filters, st.persistentFilters⟩

/-- Parser for the unary length prefix. -/
def parseNatU : List Char → Option (Nat × List Char)
  | '1' :: cs =>
    match parseNatU cs with
    | some (n, r) => some (n + 1, r)
    | none => none
  | ':' :: cs => some (0, cs)
  | _ => none

/-- Parser for a length-prefixed string. -/
def parseKey (cs : List Char) : Option (String × List Char) :=
  match parseNatU cs with
  | some (n, cs') =>
    if n ≤ cs'.length then some (String.mk (cs'.take n), cs'.drop n) else none
  | none => none

/-- Parser for a primitive value. -/
def parsePrim : List Char → Option (Prim × List Char)
  | 's' :: cs =>
    match parseKey cs with
    | some (s, r) => some (.str s, r)
    | none => none
  | 'p' :: cs =>
    match parseNatU cs with
    | some (k, r) => some (.num (Int.ofNat k), r)
    | none => none
  | 'n' :: cs =>
    match parseNatU cs with
    | some (k, r) => some (.num (-(Int.ofNat k)), r)
    | none => none
  | 't' :: cs => some (.bool true, cs)
  | 'f' :: cs => some (.bool false, cs)
  | 'z' :: cs => some (.null, cs)
  | 'u' :: cs => some (.undefined, cs)
  | _ => none

/-- Fuelled parser for a primitive list up to its `e` terminator. -/
def parsePrims : Nat → List Char → Option (List Prim × List Char)
  | 0, _ => none
  | fuel + 1, cs =>
    if cs.head? = some 'e' then some ([], cs.tail)
    else
      match parsePrim cs with
      | some (p, cs') =>
        match parsePrims fuel cs' with
        | some (ps, r) => some (p :: ps, r)
        | none => none
      | none => none

/-- Scalar view of a primitive as a dynamic value. -/
def primToJVal : Prim → JVal
  | .str s => .str s
  | .num n => .num n
  | .bool b => .bool b
  | .null => .null
  | .undefined => .undefined

/-- Parser for a dynamic value. -/
def parseJVal (fuel : Nat) (cs : List Char) : Option (JVal × List Char) :=
  if cs.head? = some 'l' then
    match parsePrims fuel cs.tail with
    | some (xs, r) => some (.list xs, r)
    | none => none
  else
    match parsePrim cs with
    | some (p, r) => some (primToJVal p, r)
    | none => none

/-- Fuelled parser for the values of one filter tuple up to its `e`
terminator. -/
def parseJVals : Nat → List Char → Option (List JVal × List Char)
  | 0, _ => none
  | fuel + 1, cs =>
    if cs.head? = some 'e' then some ([], cs.tail)
    else
      match parseJVal fuel cs with
      | some (v, cs') =>
        match parseJVals fuel cs' with
        | some (vs, r) => some (v :: vs, r)
        | none => none
      | none => none

/-- Fuelled parser for a filters section up to its `E` terminator. -/
def parseFilters : Nat → List Char → Option (List (List JVal) × List Char)
  | 0, _ => none
  | fuel + 1, cs =>
    if cs.head? = some 'E' then some ([], cs.tail)
    else
      match parseJVals fuel cs with
      | some (f, cs') =>
        match parseFilters fuel cs' with
        | some (fs, r) => some (f :: fs, r)
        | none => none
      | none => none

/-- Parser for one params entry. -/
def parsePair (fuel : Nat) (cs : List Char) : Option ((String × JVal) × List Char) :=
  match parseKey cs with
  | some (k, cs') =>
    match parseJVal fuel cs' with
    | some (v, r) => some ((k, v), r)
    | none => none
  | none => none

/-- Fuelled parser for the params section up to its `e` terminator. -/
def parsePairs : Nat → List Char → Option (JObj × List Char)
  | 0, _ => none
  | fuel + 1, cs =>
    if cs.head? = some 'e' then some ([], cs.tail)
    else
      match parsePair fuel cs with
      | some (kv, cs') =>
        match parsePairs fuel cs' with
        | some (kvs, r) => some (kv :: kvs, r)
        | none => none
      | none => none

/-- Modelled from the spec: `deserialize(token)` reconstructs the
`SerTriple`, and degrades to the empty structure on any malformed or
corrupted token instead of failing. -/
def deserialize (cs : List Char) : SerTriple :=
  match parsePairs (2 * cs.length + 1) cs with
  | some (ps, cs1) =>
    match parseFilters (2 * cs1.length + 1) cs1 with
    | some (fs, cs2) =>
      match parseFilters (2 * cs2.length + 1) cs2 with
      | some (pfs, []) => ⟨ps, fs, pfs⟩
      | _ => emptySer
    | none => emptySer
  | none => emptySer

/-- The four method exclusivity families that `setFilter` clears
together. -/
def families : List (List String) :=
  [["match"], ["eq", "ne"], ["range", "in", "not_in"], ["exist", "not_exist"]]

/-- Test whether a filter tuple has the given attribute and a method
belonging to the given family. -/
def inFamily (a : String) (fam : List String) (f : List JVal) : Bool :=
  (f.getD 0 JVal.undefined == JVal.str a) &&
    (match f.getD 1 JVal.undefined with
     | JVal.str m => fam.contains m
     | _ => false)

/-- Number of non-persistent filters with the given attribute and a
method in the given family. -/
def famCount (st : ParametronData) (a : String) (fam : List String) : Nat :=
  st.filters.countP (inFamily a fam)

/-- Test whether a filter tuple is a full-text-search filter. -/
def isQFilter (f : List JVal) : Bool := f.getD 1 JVal.undefined == JVal.str "q"

/-- Number of full-text-search filters. -/
def qCount (st : ParametronData) : Nat := st.filters.countP isQFilter

/-- One recorded `setFilter` invocation. -/
structure SetFilterCall where
  attr : String
  meth : String
  v1 : JVal
  v2 : JVal
deriving DecidableEq, Repr

/-- Replay a sequence of `setFilter` invocations. -/
def applyCalls (calls : List SetFilterCall) (st : ParametronData) : ParametronData :=
  calls.foldl (fun s c => setFilter c.attr c.meth c.v1 c.v2 s) st

/-! Theorems about the embedded operations. -/

/-- C10: passing the empty string as the attribute (or method) argument
of `getFilters`, `dropFilters` or `getFilterValues` behaves exactly as
if that argument were omitted, because the predicate factory tests JS
truthiness: `getFilters` with empty attribute selects by method alone,
and `dropFilters` with only an empty attribute removes every
non-persistent filter. -/
theorem emptyString_behaves_as_omitted :
    ∀ (st : ParametronData) (ao mo : Option String) (a m : String),
    filterByAttributeMethod (some "") mo = filterByAttributeMethod none mo
    ∧ filterByAttributeMethod ao (some "") = filterByAttributeMethod ao none
    ∧ getFilters (some "") mo st = getFilters none mo st
    ∧ dropFilters (some "") mo st = dropFilters none mo st
    ∧ getFilters (some a) (some "") st = getFilters (some a) none st
    ∧ dropFilters (some a) (some "") st = dropFilters (some a) none st
    ∧ getFilters (some "") (some "eq") st
        = st.filters.filter (fun f => f.getD 1 JVal.undefined == JVal.str "eq")
    ∧ (dropFilters (some "") none st).filters = []
    ∧ getFilterValues "" m st
        = (let values := ((getFilters none (some m) st).head?.getD []).drop 2
           if values.length > 1 then .multiple values else .single (values.headD JVal.undefined)) := by
  have hA : ∀ (mo : Option String),
      filterByAttributeMethod (some "") mo = filterByAttributeMethod none mo := by
    intro mo; funext f; rfl
  have hM : ∀ (ao : Option String),
      filterByAttributeMethod ao (some "") = filterByAttributeMethod ao none := by
    intro ao; funext f
    simp only [filterByAttributeMethod, strTruthy]
    cases ao with
    | none => rfl
    | some a => cases h : (a == "") <;> simp [h]
  intro st ao mo a m
  refine ⟨hA mo, hM ao, ?_, ?_, ?_, ?_, ?_, ?_, ?_⟩
  · simp only [getFilters, hA]
  · simp only [dropFilters, hA]
  · simp only [getFilters, hM]
  · simp only [dropFilters, hM]
  · simp only [getFilters, hA]
    refine List.filter_congr ?_
    intro f _
    rfl
  · simp only [dropFilters]
    refine List.filter_eq_nil_iff.mpr ?_
    intro f _
    simp [filterByAttributeMethod, strTruthy]
  · simp only [getFilterValues, getFilters, hA]

/-- C8: `getFilterValues` reads only the first matching non-persistent
filter; one trailing value is returned unwrapped, several as an ordered
list, and no match gives `undefined`. -/
theorem getFilterValues_first_match :
    ∀ (st : ParametronData) (a m : String),
    (getFilters (some a) (some m) st = [] → getFilterValues a m st = .single JVal.undefined)
    ∧ (∀ f rest, getFilters (some a) (some m) st = f :: rest →
        (∀ v, f.drop 2 = [v] → getFilterValues a m st = .single v)
        ∧ (∀ v w vs, f.drop 2 = v :: w :: vs →
            getFilterValues a m st = .multiple (v :: w :: vs))) := by
  intro st a m
  constructor
  · intro h
    simp only [getFilterValues]
    rw [show st.filters.filter (filterByAttributeMethod (some a) (some m))
          = getFilters (some a) (some m) st from rfl, h]
    rfl
  · intro f rest h
    constructor
    · intro v hv
      simp only [getFilterValues]
      rw [show st.filters.filter (filterByAttributeMethod (some a) (some m))
            = getFilters (some a) (some m) st from rfl, h]
      simp [hv]
    · intro v w vs hv
      simp only [getFilterValues]
      rw [show st.filters.filter (filterByAttributeMethod (some a) (some m))
            = getFilters (some a) (some m) st from rfl, h]
      simp [hv]

/-- State with one range filter, for evaluating `getFilterValues`. -/
def rangeFilterData : ParametronData :=
  { initialData with
    filters := [[JVal.str "year_of_production", JVal.str "range", JVal.num 1900, JVal.num 2008]] }

/-- State with one full-text-search filter. -/
def qFilterData : ParametronData :=
  { initialData with filters := [[JVal.str "_", JVal.str "q", JVal.str "Foo"]] }

/-- Witness for C8: the range filter yields the ordered pair, the `q`
filter yields the unwrapped search string. -/
theorem getFilterValues_first_match_witness :
    getFilterValues "year_of_production" "range" rangeFilterData
      = .multiple [JVal.num 1900, JVal.num 2008]
    ∧ getFilterValues "_" "q" qFilterData = .single (JVal.str "Foo") := by
  constructor
  · exact ((getFilterValues_first_match rangeFilterData "year_of_production" "range").2
      [JVal.str "year_of_production", JVal.str "range", JVal.num 1900, JVal.num 2008] []
      (by decide)).2 (JVal.num 1900) (JVal.num 2008) [] (by decide)
  · exact ((getFilterValues_first_match qFilterData "_" "q").2
      [JVal.str "_", JVal.str "q", JVal.str "Foo"] [] (by decide)).1 (JVal.str "Foo") (by decide)

/-- C9 counterexample: `setPersistentFilter` stores
`compact([attribute, method, value1, value2])`, which drops every falsy
entry — the value `0` is not preserved — and `setFilter` removes a
null value argument at any position, shifting later values left, not
only trailing ones. -/
theorem persistent_tuple_drops_falsy :
    (setPersistentFilter "a" "in" (JVal.num 0) JVal.undefined initialData).persistentFilters
      = [[JVal.str "a", JVal.str "in"]]
    ∧ ((setPersistentFilter "a" "in" (JVal.num 0) JVal.undefined initialData).persistentFilters
      ≠ [[JVal.str "a", JVal.str "in", JVal.num 0]])
    ∧ (setFilter "a" "range" JVal.null (JVal.num 5) initialData).filters
      = [[JVal.str "a", JVal.str "range", JVal.num 5]] := by
  exact ⟨rfl, by decide, rfl⟩

/-- C9 amended: a `setFilter` tuple is the argument list with
null/undefined removed at any position (strings — even empty — and
values such as 0, false, the empty string being kept), while a
`setPersistentFilter` tuple drops every falsy entry. -/
theorem appended_tuple_shapes :
    ∀ (st : ParametronData) (a m : String) (v1 v2 : JVal),
    (setFilter a m v1 v2 st).filters.getLast?
      = some (JVal.str a :: JVal.str m ::
          ([v1, v2].filter (fun v => !(JVal.isNullOrUndefined v))))
    ∧ (setPersistentFilter a m v1 v2 st).persistentFilters
      = st.persistentFilters ++ [([JVal.str a, JVal.str m, v1, v2].filter JVal.truthy)] := by
  intro st a m v1 v2
  constructor
  · simp only [setFilter]
    rw [List.getLast?_concat]
    rfl
  · rfl

/-- Params object carrying a key named `0`, to expose what `dropParams`
actually deletes. -/
def paramsWithIndexKey : ParametronData :=
  { initialData with params := [("0", JVal.num 9), ("per", JVal.num 24)] }

/-- C7: `dropParams` iterates `for..in` over the argument array, so it
deletes the params keys named after the argument indices — `0`, `1`, …
— and leaves the named keys untouched: dropping `per` changes nothing,
while dropping `x` deletes an unrelated key named `0`. -/
theorem dropParams_deletes_indices :
    (dropParams ["per"] initialData).params = initialData.params
    ∧ lookupKey (dropParams ["per"] initialData).params "per" = some (JVal.num 24)
    ∧ (dropParams ["x"] paramsWithIndexKey).params = [("per", JVal.num 24)] := by
  exact ⟨rfl, rfl, rfl⟩

/-- Options value with the required executor missing. -/
def optsNoExecutor : ParametronOpts :=
  { executor := none, stats := none, schema := none }

/-- C6 counterexample: constructing with the executor configuration
missing does not raise — the constructor returns the ordinary initial
state. -/
theorem construct_without_executor_ok :
    exceptOk (construct optsNoExecutor) = true
    ∧ construct optsNoExecutor = .ok (optsNoExecutor, initialData) := by
  exact ⟨rfl, rfl⟩

/-- C6 amended: the current constructor performs no runtime validation
at all — it never raises, with or without an executor; only the legacy
constructor raised, and it validated the `model` option, not the
executor. -/
theorem construct_never_raises :
    (∀ opts : ParametronOpts, construct opts = .ok (opts, initialData))
    ∧ constructLegacy { model := none } = .error "parametron: model option missing"
    ∧ constructLegacy { model := some "pm.product" } = .ok initialData := by
  exact ⟨fun _ => rfl, rfl, rfl⟩

/-- Pre-fire state with a previous result set, for C3. -/
def lastGoodResultData : ParametronData :=
  { initialData with
    objects := [JVal.num 42]
    aggregations := [("count_by_x", JVal.num 3)]
    totalCount := 7
    totalPages := 2 }

/-- The system after a failing fire issued on `lastGoodResultData`
settles. -/
def failedFireSys : ParamSys :=
  settlePending 0 (apiFire none (.failure "boom") ⟨lastGoodResultData, [], []⟩)

/-- C3 counterexample: after a failing fire the result fields are NOT
at their pre-fire values — `prepare` cleared them to empty at fire
start, and the failure handler leaves them empty; the error itself is
propagated and `running` is reset. -/
theorem failed_fire_clears_results :
    failedFireSys.st.objects = []
    ∧ failedFireSys.st.totalCount = 0
    ∧ failedFireSys.st.aggregations = []
    ∧ failedFireSys.st.objects ≠ lastGoodResultData.objects
    ∧ failedFireSys.st.running = false
    ∧ failedFireSys.log = [(1, .rejected "boom")] := by
  exact ⟨rfl, rfl, rfl, by decide, rfl, rfl⟩

/-- C3 amended: for every failing fire cycle the error is propagated to
the caller (the promise rejects with it), `running` is reset to false,
filters and params are untouched, and the result fields hold the empty
values `prepare` reset them to at fire start — not the values from
before the fire. -/
theorem failed_fire_state :
    ∀ (st0 : ParametronData) (log0 : List (Nat × FireSignal))
      (stats : Option String) (e : String),
    (settlePending 0 (apiFire stats (.failure e) ⟨st0, [], log0⟩)).st.running = false
    ∧ (settlePending 0 (apiFire stats (.failure e) ⟨st0, [], log0⟩)).log
        = log0 ++ [(st0.reqId + 1, .rejected e)]
    ∧ (settlePending 0 (apiFire stats (.failure e) ⟨st0, [], log0⟩)).st.objects = []
    ∧ (settlePending 0 (apiFire stats (.failure e) ⟨st0, [], log0⟩)).st.aggregations = []
    ∧ (settlePending 0 (apiFire stats (.failure e) ⟨st0, [], log0⟩)).st.totalCount = 0
    ∧ (settlePending 0 (apiFire stats (.failure e) ⟨st0, [], log0⟩)).st.totalPages = 0
    ∧ (settlePending 0 (apiFire stats (.failure e) ⟨st0, [], log0⟩)).st.filters = st0.filters
    ∧ (settlePending 0 (apiFire stats (.failure e) ⟨st0, [], log0⟩)).st.persistentFilters
        = st0.persistentFilters
    ∧ (settlePending 0 (apiFire stats (.failure e) ⟨st0, [], log0⟩)).st.params = st0.params := by
  intro st0 log0 stats e
  simp [settlePending, apiFire, applyFailure, prepare]

/-- Executor result carrying the marker objects of fire A. -/
def resultA : ExecSuccess :=
  { objects := [JVal.str "A"]
    aggregations := []
    pagination := some { total_count := some 1, total_pages := some 1 } }

/-- Executor result carrying the marker objects of fire B. -/
def resultB : ExecSuccess :=
  { objects := [JVal.str "B"]
    aggregations := []
    pagination := some { total_count := some 1, total_pages := some 1 } }

/-- Fire A issued, then fire B issued before A's executor call
settles. -/
def overlappingFires : ParamSys :=
  apiFire none (.success resultB) (apiFire none (.success resultA) ⟨initialData, [], []⟩)

/-- The system after B's executor call settles first. -/
def afterBSettles : ParamSys := settlePending 1 overlappingFires

/-- The system after A's executor call settles last. -/
def afterASettles : ParamSys := settlePending 0 afterBSettles

/-- C1 counterexample: with fire A then fire B overlapping and A
settling after B, A's resolution is NOT discarded — it overwrites B's
committed objects even though the current generation is 2 and A's is 1,
and A's promise resolves normally with data (no distinguished
superseded condition in the log). -/
theorem stale_fire_overwrites_state :
    afterBSettles.st.objects = [JVal.str "B"]
    ∧ afterASettles.st.objects = [JVal.str "A"]
    ∧ afterASettles.st.reqId = 2
    ∧ afterASettles.st ≠ afterBSettles.st
    ∧ afterASettles.log
        = [(2, .resolvedData afterBSettles.st), (1, .resolvedData afterASettles.st)] := by
  exact ⟨rfl, rfl, rfl, by decide, rfl⟩

/-- C1 amended: every settling successful executor call commits its
results to the shared state and resolves its promise normally with the
mutated data, with no comparison of its generation against the current
request sequence — so the last fire to settle, not the last issued,
determines the visible results. -/
theorem every_settlement_commits :
    ∀ (sys : ParamSys) (i : Nat) (p : PendingFire) (r : ExecSuccess),
    sys.pending[i]? = some p → p.outcome = .success r →
    (settlePending i sys).st.objects = r.objects
    ∧ (settlePending i sys).st.aggregations = r.aggregations
    ∧ (settlePending i sys).st.totalCount = totalCountOf r
    ∧ (settlePending i sys).st.totalPages = totalPagesOf r
    ∧ (settlePending i sys).st.running = false
    ∧ (settlePending i sys).log
        = sys.log ++ [(p.id, .resolvedData (applySuccess r sys.st))] := by
  intro sys i p r hget hout
  simp [settlePending, hget, hout, applySuccess]

/-- A one-element pending queue whose entry has generation 1. -/
def singlePendingSys : ParamSys :=
  { st := initialData
    pending := [{ id := 1, body := buildBody none initialData, outcome := .success resultA }]
    log := [] }

/-- Witness for the amended C1 theorem at a concrete system. -/
theorem every_settlement_commits_witness :
    (settlePending 0 singlePendingSys).st.objects = [JVal.str "A"]
    ∧ (settlePending 0 singlePendingSys).st.running = false := by
  refine ⟨(every_settlement_commits singlePendingSys 0
      { id := 1, body := buildBody none initialData, outcome := .success resultA }
      resultA rfl rfl).1, ?_⟩
  exact (every_settlement_commits singlePendingSys 0
      { id := 1, body := buildBody none initialData, outcome := .success resultA }
      resultA rfl rfl).2.2.2.2.1

/-! Supporting lemmas for the filter-family invariant (C4). -/

/-- Counting over a filtered list never exceeds counting over the
list itself. -/
theorem countP_filter_le {α : Type} (p q : α → Bool) (l : List α) :
    List.countP p (l.filter q) ≤ List.countP p l := by
  rw [List.countP_filter]
  exact List.countP_mono_left (fun x _ h => ((Bool.and_eq_true _ _).mp h).1)

/-- Membership in the filters surviving a `dropFilters`. -/
theorem mem_dropFilters {f : List JVal} {ao mo : Option String} {st : ParametronData} :
    f ∈ (dropFilters ao mo st).filters
      ↔ f ∈ st.filters ∧ filterByAttributeMethod ao mo f = false := by
  simp [dropFilters]

/-- The filters list after a `setFilter`: the drop phase's survivors
followed by the new condition tuple. -/
theorem setFilter_filters (a0 m0 : String) (v1 v2 : JVal) (st : ParametronData) :
    (setFilter a0 m0 v1 v2 st).filters
      = (setFilterDropPhase a0 m0 st).filters
        ++ [JVal.str a0 :: JVal.str m0 ::
              ([v1, v2].filter (fun v => !(JVal.isNullOrUndefined v)))] := rfl

/-- Evaluation of `inFamily` on a condition tuple. -/
theorem inFamily_cons2 (a a0 m0 : String) (fam : List String) (rest : List JVal) :
    inFamily a fam (JVal.str a0 :: JVal.str m0 :: rest)
      = ((a0 == a) && fam.contains m0) := by
  simp only [inFamily, List.getD_cons_zero, List.getD_cons_succ]
  by_cases h : a0 = a
  · subst h; simp
  · have h1 : (JVal.str a0 == JVal.str a) = false := by simp [h]
    have h2 : (a0 == a) = false := by simp [h]
    rw [h1, h2]

/-- What a true `inFamily` test says about the tuple. -/
theorem inFamily_spec {a : String} {fam : List String} {f : List JVal}
    (h : inFamily a fam f = true) :
    f.getD 0 JVal.undefined = JVal.str a
    ∧ ∃ mf, f.getD 1 JVal.undefined = JVal.str mf ∧ mf ∈ fam := by
  unfold inFamily at h
  rw [Bool.and_eq_true] at h
  obtain ⟨h0, h1⟩ := h
  refine ⟨eq_of_beq h0, ?_⟩
  revert h1
  cases hm : f.getD 1 JVal.undefined with
  | str s =>
    intro h1
    exact ⟨s, rfl, by simpa [List.contains] using h1⟩
  | num n => intro h1; exact absurd h1 (by simp)
  | bool b => intro h1; exact absurd h1 (by simp)
  | list xs => intro h1; exact absurd h1 (by simp)
  | null => intro h1; exact absurd h1 (by simp)
  | undefined => intro h1; exact absurd h1 (by simp)

/-- A tuple carrying attribute `a0` and method `mf` satisfies the drop
predicate for `(a0, mf)`, whether or not the attribute is empty. -/
theorem fba_true_of (a0 mf : String) (f : List JVal)
    (hmf : ¬ mf = "")
    (h0 : f.getD 0 JVal.undefined = JVal.str a0)
    (h1 : f.getD 1 JVal.undefined = JVal.str mf) :
    filterByAttributeMethod (some a0) (some mf) f = true := by
  have hmfb : (mf == "") = false := by simpa using hmf
  unfold filterByAttributeMethod
  rw [h0, h1]
  by_cases ha : a0 = ""
  · subst ha
    simp [strTruthy, hmfb]
  · have hab : (a0 == "") = false := by simpa using ha
    simp [strTruthy, hmfb, hab]

/-- The drop phase of a family method removes every filter of that
attribute and family. -/
theorem drops_kill_family (a0 m0 : String) (st : ParametronData) (fam : List String)
    (hfam : fam ∈ families) (hm : m0 ∈ fam) :
    ∀ f ∈ (setFilterDropPhase a0 m0 st).filters, inFamily a0 fam f = false := by
  intro f hf
  cases hb : inFamily a0 fam f with
  | false => rfl
  | true =>
  exfalso
  obtain ⟨h0, mf, h1, hmf⟩ := inFamily_spec hb
  simp only [families, List.mem_cons, List.not_mem_nil, or_false] at hfam
  rcases hfam with rfl | rfl | rfl | rfl <;>
    simp only [List.mem_cons, List.not_mem_nil, or_false] at hm hmf
  · subst hm
    subst hmf
    unfold setFilterDropPhase at hf
    rw [if_neg (by decide), if_pos (by decide)] at hf
    obtain ⟨hf0, hd⟩ := mem_dropFilters.mp hf
    exact absurd (fba_true_of a0 "match" f (by decide) h0 h1) (by simp [hd])
  · unfold setFilterDropPhase at hf
    rcases hm with rfl | rfl <;>
      rw [if_neg (by decide), if_neg (by decide), if_pos (by decide)] at hf <;>
      obtain ⟨hf1, hdne⟩ := mem_dropFilters.mp hf <;>
      obtain ⟨hf0, hdeq⟩ := mem_dropFilters.mp hf1 <;>
      rcases hmf with rfl | rfl
    · exact absurd (fba_true_of a0 "eq" f (by decide) h0 h1) (by simp [hdeq])
    · exact absurd (fba_true_of a0 "ne" f (by decide) h0 h1) (by simp [hdne])
    · exact absurd (fba_true_of a0 "eq" f (by decide) h0 h1) (by simp [hdeq])
    · exact absurd (fba_true_of a0 "ne" f (by decide) h0 h1) (by simp [hdne])
  · unfold setFilterDropPhase at hf
    rcases hm with rfl | rfl | rfl <;>
      rw [if_neg (by decide), if_neg (by decide), if_neg (by decide),
        if_pos (by decide)] at hf <;>
      obtain ⟨hf2, hdn⟩ := mem_dropFilters.mp hf <;>
      obtain ⟨hf1, hdi⟩ := mem_dropFilters.mp hf2 <;>
      obtain ⟨hf0, hdr⟩ := mem_dropFilters.mp hf1 <;>
      rcases hmf with rfl | rfl | rfl
    · exact absurd (fba_true_of a0 "range" f (by decide) h0 h1) (by simp [hdr])
    · exact absurd (fba_true_of a0 "in" f (by decide) h0 h1) (by simp [hdi])
    · exact absurd (fba_true_of a0 "not_in" f (by decide) h0 h1) (by simp [hdn])
    · exact absurd (fba_true_of a0 "range" f (by decide) h0 h1) (by simp [hdr])
    · exact absurd (fba_true_of a0 "in" f (by decide) h0 h1) (by simp [hdi])
    · exact absurd (fba_true_of a0 "not_in" f (by decide) h0 h1) (by simp [hdn])
    · exact absurd (fba_true_of a0 "range" f (by decide) h0 h1) (by simp [hdr])
    · exact absurd (fba_true_of a0 "in" f (by decide) h0 h1) (by simp [hdi])
    · exact absurd (fba_true_of a0 "not_in" f (by decide) h0 h1) (by simp [hdn])
  · unfold setFilterDropPhase at hf
    rcases hm with rfl | rfl <;>
      rw [if_neg (by decide), if_neg (by decide), if_neg (by decide),
        if_neg (by decide), if_pos (by decide)] at hf <;>
      obtain ⟨hf1, hdnex⟩ := mem_dropFilters.mp hf <;>
      obtain ⟨hf0, hdex⟩ := mem_dropFilters.mp hf1 <;>
      rcases hmf with rfl | rfl
    · exact absurd (fba_true_of a0 "exist" f (by decide) h0 h1) (by simp [hdex])
    · exact absurd (fba_true_of a0 "not_exist" f (by decide) h0 h1) (by simp [hdnex])
    · exact absurd (fba_true_of a0 "exist" f (by decide) h0 h1) (by simp [hdex])
    · exact absurd (fba_true_of a0 "not_exist" f (by decide) h0 h1) (by simp [hdnex])

/-- Every survivor of the drop phase was already a filter before it. -/
theorem dropPhase_subset (a0 m0 : String) (st : ParametronData) :
    ∀ f ∈ (setFilterDropPhase a0 m0 st).filters, f ∈ st.filters := by
  intro f hf
  unfold setFilterDropPhase at hf
  split_ifs at hf <;>
    try simp only [dropFilters, List.mem_filter] at hf
  all_goals
    first
      | exact hf
      | exact hf.1
      | exact hf.1.1
      | exact hf.1.1.1

/-- Counting after the drop phase never exceeds counting before it. -/
theorem countP_dropPhase_le (p : List JVal → Bool) (a0 m0 : String) (st : ParametronData) :
    List.countP p (setFilterDropPhase a0 m0 st).filters ≤ List.countP p st.filters := by
  unfold setFilterDropPhase
  split_ifs
  all_goals
    first
      | exact Nat.le_refl _
      | exact countP_filter_le _ _ _
      | exact Nat.le_trans (countP_filter_le _ _ _) (countP_filter_le _ _ _)
      | exact Nat.le_trans (countP_filter_le _ _ _)
          (Nat.le_trans (countP_filter_le _ _ _) (countP_filter_le _ _ _))

/-- One `setFilter` preserves the at-most-one-per-family bound for every
attribute and family. -/
theorem famCount_setFilter_le_one (st : ParametronData) (a0 m0 : String) (v1 v2 : JVal)
    (a : String) (fam : List String) (hfam : fam ∈ families)
    (hst : famCount st a fam ≤ 1) :
    famCount (setFilter a0 m0 v1 v2 st) a fam ≤ 1 := by
  rw [famCount, setFilter_filters, List.countP_append]
  by_cases hδ : inFamily a fam (JVal.str a0 :: JVal.str m0 ::
      ([v1, v2].filter (fun v => !(JVal.isNullOrUndefined v)))) = true
  · have hc : List.countP (inFamily a fam) [JVal.str a0 :: JVal.str m0 ::
        ([v1, v2].filter (fun v => !(JVal.isNullOrUndefined v)))] = 1 := by
      simp [List.countP_cons, hδ]
    rw [hc]
    rw [inFamily_cons2, Bool.and_eq_true] at hδ
    obtain ⟨ha, hmem⟩ := hδ
    have ha' : a0 = a := eq_of_beq ha
    subst ha'
    have hm : m0 ∈ fam := by simpa [List.contains] using hmem
    have hzero : List.countP (inFamily a0 fam) (setFilterDropPhase a0 m0 st).filters = 0 := by
      rw [List.countP_eq_zero]
      intro f hf
      simp [drops_kill_family a0 m0 st fam hfam hm f hf]
    omega
  · have hc : List.countP (inFamily a fam) [JVal.str a0 :: JVal.str m0 ::
        ([v1, v2].filter (fun v => !(JVal.isNullOrUndefined v)))] = 0 := by
      simp only [Bool.not_eq_true] at hδ
      simp [List.countP_cons, hδ]
    rw [hc]
    have hle := countP_dropPhase_le (inFamily a fam) a0 m0 st
    rw [famCount] at hst
    omega

/-- One `setFilter` preserves the full-text-search singleton invariant,
provided every `q` call uses the sentinel attribute. -/
theorem q_setFilter_inv (st : ParametronData) (a0 m0 : String) (v1 v2 : JVal)
    (hq : m0 = "q" → a0 = "_")
    (hinv : ∀ f ∈ st.filters, isQFilter f = true → f.getD 0 JVal.undefined = JVal.str "_")
    (hcount : qCount st ≤ 1) :
    (∀ f ∈ (setFilter a0 m0 v1 v2 st).filters,
        isQFilter f = true → f.getD 0 JVal.undefined = JVal.str "_")
    ∧ qCount (setFilter a0 m0 v1 v2 st) ≤ 1 := by
  by_cases hm : m0 = "q"
  · subst hm
    have ha := hq rfl
    subst ha
    have hphase : setFilterDropPhase "_" "q" st = dropFilters (some "_") none st := by
      unfold setFilterDropPhase
      rw [if_pos (by decide)]
    have hkill : ∀ f ∈ (setFilterDropPhase "_" "q" st).filters, isQFilter f = false := by
      rw [hphase]
      intro f hf
      obtain ⟨hf0, hd⟩ := mem_dropFilters.mp hf
      cases hb : isQFilter f with
      | false => rfl
      | true =>
        exfalso
        have h0 := hinv f hf0 hb
        have htr : filterByAttributeMethod (some "_") none f = true := by
          unfold filterByAttributeMethod
          rw [h0]
          simp [strTruthy]
        simp [htr] at hd
    constructor
    · intro f hf hqf
      rw [setFilter_filters] at hf
      rcases List.mem_append.mp hf with hf | hf
      · exact absurd hqf (by simp [hkill f hf])
      · rw [List.mem_singleton] at hf
        subst hf
        rfl
    · rw [qCount, setFilter_filters, List.countP_append]
      have h1 : List.countP isQFilter (setFilterDropPhase "_" "q" st).filters = 0 := by
        rw [List.countP_eq_zero]
        intro f hf
        simp [hkill f hf]
      have h2 : List.countP isQFilter [JVal.str "_" :: JVal.str "q" ::
          ([v1, v2].filter (fun v => !(JVal.isNullOrUndefined v)))] = 1 := by
        simp [List.countP_cons, isQFilter]
      omega
  · have hcq : isQFilter (JVal.str a0 :: JVal.str m0 ::
        ([v1, v2].filter (fun v => !(JVal.isNullOrUndefined v)))) = false := by
      simp [isQFilter, hm]
    constructor
    · intro f hf hqf
      rw [setFilter_filters] at hf
      rcases List.mem_append.mp hf with hf | hf
      · exact hinv f (dropPhase_subset a0 m0 st f hf) hqf
      · rw [List.mem_singleton] at hf
        subst hf
        exact absurd hqf (by simp [hcq])
    · rw [qCount, setFilter_filters, List.countP_append]
      have h2 : List.countP isQFilter [JVal.str a0 :: JVal.str m0 ::
          ([v1, v2].filter (fun v => !(JVal.isNullOrUndefined v)))] = 0 := by
        simp [List.countP_cons, hcq]
      have h1 := countP_dropPhase_le isQFilter a0 m0 st
      rw [qCount] at hcount
      omega

/-- Replaying any call sequence preserves the family bound. -/
theorem famCount_applyCalls (calls : List SetFilterCall) :
    ∀ (st : ParametronData),
    (∀ fam ∈ families, ∀ a, famCount st a fam ≤ 1) →
    ∀ fam ∈ families, ∀ a, famCount (applyCalls calls st) a fam ≤ 1 := by
  induction calls with
  | nil => intro st h; exact h
  | cons c rest ih =>
    intro st h
    exact ih (setFilter c.attr c.meth c.v1 c.v2 st)
      (fun fam hf a =>
        famCount_setFilter_le_one st c.attr c.meth c.v1 c.v2 a fam hf (h fam hf a))

/-- Replaying any call sequence whose `q` calls all use the sentinel
attribute preserves the full-text-search singleton bound. -/
theorem q_applyCalls (calls : List SetFilterCall) :
    ∀ (st : ParametronData),
    (∀ c ∈ calls, c.meth = "q" → c.attr = "_") →
    (∀ f ∈ st.filters, isQFilter f = true → f.getD 0 JVal.undefined = JVal.str "_") →
    qCount st ≤ 1 →
    qCount (applyCalls calls st) ≤ 1 := by
  induction calls with
  | nil => intro st _ _ h; exact h
  | cons c rest ih =>
    intro st hc hinv hcount
    obtain ⟨hinv', hcount'⟩ := q_setFilter_inv st c.attr c.meth c.v1 c.v2
      (hc c (List.mem_cons_self c rest)) hinv hcount
    exact ih _ (fun c' hc' => hc c' (List.mem_cons_of_mem c hc')) hinv' hcount'

/-- The two `q` calls of the C4 counterexample, the first with a
non-sentinel attribute. -/
def twoQCalls : List SetFilterCall :=
  [⟨"other", "q", JVal.str "Bar", JVal.undefined⟩,
   ⟨"_", "q", JVal.str "Baz", JVal.undefined⟩]

/-- C4 counterexample: a new `q` filter only drops filters whose
attribute is the sentinel, not prior `q` filters of other attributes —
after `setFilter(other, q, Bar)` and `setFilter(_, q, Baz)` two `q`
filters coexist. -/
theorem two_q_filters_coexist :
    (applyCalls twoQCalls initialData).filters
      = [[JVal.str "other", JVal.str "q", JVal.str "Bar"],
         [JVal.str "_", JVal.str "q", JVal.str "Baz"]]
    ∧ qCount (applyCalls twoQCalls initialData) = 2 := ⟨rfl, rfl⟩

/-- C4 amended: after any sequence of `setFilter` calls at most one
filter per attribute and exclusivity family remains — namely the tuple
of the most recent call for that attribute and family — and at most
one `q` filter remains provided every `q` call used the sentinel
attribute; a `q` call drops the filters whose attribute is the
sentinel, not prior `q` filters of other attributes. -/
theorem setFilter_family_exclusivity :
    ∀ (calls : List SetFilterCall),
    (∀ fam ∈ families, ∀ a, famCount (applyCalls calls initialData) a fam ≤ 1)
    ∧ ((∀ c ∈ calls, c.meth = "q" → c.attr = "_") →
        qCount (applyCalls calls initialData) ≤ 1)
    ∧ (∀ (st : ParametronData) (a m : String) (v1 v2 : JVal) (fam : List String),
        fam ∈ families → m ∈ fam →
        (setFilter a m v1 v2 st).filters.filter (inFamily a fam)
          = [JVal.str a :: JVal.str m ::
              ([v1, v2].filter (fun v => !(JVal.isNullOrUndefined v)))]) := by
  intro calls
  refine ⟨?_, ?_, ?_⟩
  · exact famCount_applyCalls calls initialData
      (by intro fam _ a; simp [famCount, initialData])
  · intro hquses
    exact q_applyCalls calls initialData hquses
      (by intro f hf _; exact absurd hf (by simp [initialData]))
      (by simp [qCount, initialData])
  · intro st a m v1 v2 fam hfam hm
    rw [setFilter_filters, List.filter_append]
    have h1 : (setFilterDropPhase a m st).filters.filter (inFamily a fam) = [] := by
      rw [List.filter_eq_nil_iff]
      intro f hf
      simp [drops_kill_family a m st fam hfam hm f hf]
    have hδ : inFamily a fam (JVal.str a :: JVal.str m ::
        ([v1, v2].filter (fun v => !(JVal.isNullOrUndefined v)))) = true := by
      rw [inFamily_cons2]
      simp [List.contains, hm]
    rw [h1]
    simp [hδ]

/-- Witness for the amended C4 theorem: two sentinel `q` calls leave one
`q` filter, and an `eq` call leaves exactly its own tuple as the
`(year, eq or ne)` entry. -/
theorem setFilter_family_exclusivity_witness :
    qCount (applyCalls [⟨"_", "q", JVal.str "Foo", JVal.undefined⟩,
        ⟨"_", "q", JVal.str "Bar", JVal.undefined⟩] initialData) ≤ 1
    ∧ famCount (applyCalls [⟨"_", "q", JVal.str "Foo", JVal.undefined⟩,
        ⟨"_", "q", JVal.str "Bar", JVal.undefined⟩] initialData) "year" ["eq", "ne"] ≤ 1
    ∧ (setFilter "year" "eq" (JVal.num 2000) JVal.undefined initialData).filters.filter
        (inFamily "year" ["eq", "ne"])
      = [[JVal.str "year", JVal.str "eq", JVal.num 2000]] := by
  refine ⟨?_, ?_, ?_⟩
  · exact (setFilter_family_exclusivity _).2.1 (by decide)
  · exact (setFilter_family_exclusivity
      [⟨"_", "q", JVal.str "Foo", JVal.undefined⟩,
       ⟨"_", "q", JVal.str "Bar", JVal.undefined⟩]).1 ["eq", "ne"] (by decide) "year"
  · exact (setFilter_family_exclusivity []).2.2 initialData "year" "eq"
      (JVal.num 2000) JVal.undefined ["eq", "ne"] (by decide) (by decide)

/-! Lemmas for the fixed-order re-sort (C2, modelled from the spec). -/

/-- The fixed-order index never exceeds the list length. -/
theorem fixedOrderIndex_le (ids : List Int) (x : Int) :
    fixedOrderIndex ids x ≤ ids.length := by
  induction ids with
  | nil => simp [fixedOrderIndex]
  | cons y ys ih =>
    simp only [fixedOrderIndex, List.length_cons]
    by_cases h : x = y
    · simp [h]
    · rw [if_neg h]
      omega

/-- The fixed-order index is the length exactly for absent
identifiers. -/
theorem fixedOrderIndex_eq_length_iff (ids : List Int) (x : Int) :
    fixedOrderIndex ids x = ids.length ↔ x ∉ ids := by
  induction ids with
  | nil => simp [fixedOrderIndex]
  | cons y ys ih =>
    simp only [fixedOrderIndex, List.length_cons, List.mem_cons]
    by_cases h : x = y
    · simp [h]
    · rw [if_neg h]
      simp [h, ih]

/-- Elements of the counting sort come from the list, with key below
the bound. -/
theorem mem_stableCountingSort {α : Type} (key : α → Nat) (n : Nat) (l : List α) :
    ∀ x ∈ stableCountingSort key n l, x ∈ l ∧ key x < n := by
  induction n with
  | zero =>
    intro x hx
    simp [stableCountingSort] at hx
  | succ n ih =>
    intro x hx
    simp only [stableCountingSort] at hx
    rcases List.mem_append.mp hx with hx | hx
    · obtain ⟨h1, h2⟩ := ih x hx
      exact ⟨h1, Nat.lt_succ_of_lt h2⟩
    · rw [List.mem_filter] at hx
      obtain ⟨h1, h2⟩ := hx
      have hk : key x = n := by simpa using h2
      exact ⟨h1, by omega⟩

/-- The counting sort is sorted by its key. -/
theorem pairwise_stableCountingSort {α : Type} (key : α → Nat) (n : Nat) (l : List α) :
    (stableCountingSort key n l).Pairwise (fun a b => key a ≤ key b) := by
  induction n with
  | zero => simp [stableCountingSort]
  | succ n ih =>
    simp only [stableCountingSort]
    rw [List.pairwise_append]
    refine ⟨ih, ?_, ?_⟩
    · refine List.pairwise_of_forall_mem_list ?_
      intro x hx y hy
      rw [List.mem_filter] at hx hy
      have hx2 : key x = n := by simpa using hx.2
      have hy2 : key y = n := by simpa using hy.2
      omega
    · intro x hx y hy
      have h1 := (mem_stableCountingSort key n l x hx).2
      rw [List.mem_filter] at hy
      have h2 : key y = n := by simpa using hy.2
      omega

/-- The counting sort preserves each key class of the input verbatim
(this is the stability law: equal-key elements keep their relative
order). -/
theorem filter_stableCountingSort {α : Type} (key : α → Nat) (n : Nat) (l : List α) (k : Nat) :
    (stableCountingSort key n l).filter (fun a => key a == k)
      = if k < n then l.filter (fun a => key a == k) else [] := by
  induction n with
  | zero => simp [stableCountingSort]
  | succ n ih =>
    simp only [stableCountingSort]
    rw [List.filter_append, ih]
    by_cases hk : k < n
    · rw [if_pos hk, if_pos (by omega)]
      have hnil : (l.filter (fun a => key a == n)).filter (fun a => key a == k) = [] := by
        rw [List.filter_filter, List.filter_eq_nil_iff]
        intro a _
        simp only [Bool.and_eq_true, beq_iff_eq]
        intro h
        omega
      rw [hnil, List.append_nil]
    · by_cases hk2 : k = n
      · subst hk2
        rw [if_neg hk, if_pos (by omega), List.filter_filter, List.nil_append]
        refine List.filter_congr ?_
        intro a _
        simp
      · rw [if_neg hk, if_neg (by omega), List.filter_filter, List.nil_append,
          List.filter_eq_nil_iff]
        intro a _
        simp only [Bool.and_eq_true, beq_iff_eq]
        intro h
        omega

/-- An empty store to install the fixed order on. -/
def emptyFixedOrderStore : FixedOrderStore :=
  { params := initialParams, fixedOrder := none, objects := [] }

/-- C2: with a fixed-order override installed via `setFixedOrder(ids)`,
a successful fire stores the raw objects re-sorted stably by the
position of each object's identifier in `ids`: the result is sorted by
that position, every position class keeps the raw relative order,
objects with absent identifiers form the final segment in raw order,
and `setFixedOrder([3,1,2])` with raw objects `1,2,3` yields `3,1,2`. -/
theorem fixedOrder_reconciliation :
    ∀ (s : FixedOrderStore) (ids : List Int) (raw : List SObj),
    s.fixedOrder = some ids →
    ((specFireSuccess raw s).objects = fixedOrderSort ids raw
    ∧ (specFireSuccess raw s).objects.Pairwise
        (fun a b => fixedOrderIndex ids a.id ≤ fixedOrderIndex ids b.id)
    ∧ (∀ k, (specFireSuccess raw s).objects.filter
          (fun o => fixedOrderIndex ids o.id == k)
        = raw.filter (fun o => fixedOrderIndex ids o.id == k))
    ∧ (specFireSuccess raw s).objects
        = stableCountingSort (fun o => fixedOrderIndex ids o.id) ids.length raw
            ++ raw.filter (fun o => !(ids.contains o.id)))
    ∧ (∀ s0, (setFixedOrder ids s0).fixedOrder = some ids)
    ∧ (specFireSuccess [⟨1, "x"⟩, ⟨2, "y"⟩, ⟨3, "z"⟩]
          (setFixedOrder [3, 1, 2] emptyFixedOrderStore)).objects
        = [⟨3, "z"⟩, ⟨1, "x"⟩, ⟨2, "y"⟩] := by
  intro s ids raw hfix
  have hobj : (specFireSuccess raw s).objects = fixedOrderSort ids raw := by
    simp [specFireSuccess, hfix]
  refine ⟨⟨hobj, ?_, ?_, ?_⟩, fun s0 => rfl, rfl⟩
  · rw [hobj, fixedOrderSort]
    exact pairwise_stableCountingSort _ _ _
  · intro k
    rw [hobj, fixedOrderSort, filter_stableCountingSort]
    by_cases hk : k < ids.length + 1
    · rw [if_pos hk]
    · rw [if_neg hk, eq_comm, List.filter_eq_nil_iff]
      intro o _
      simp only [beq_iff_eq]
      have := fixedOrderIndex_le ids o.id
      omega
  · rw [hobj, fixedOrderSort]
    simp only [stableCountingSort]
    refine congrArg _ ?_
    refine List.filter_congr ?_
    intro o _
    by_cases h : o.id ∈ ids
    · have h1 : fixedOrderIndex ids o.id ≠ ids.length := by
        intro hcon
        exact (fixedOrderIndex_eq_length_iff ids o.id).mp hcon h
      simp [h1, h]
    · have h1 : fixedOrderIndex ids o.id = ids.length :=
        (fixedOrderIndex_eq_length_iff ids o.id).mpr h
      simp [h1, h]

/-- Witness for C2 at the spec's concrete example. -/
theorem fixedOrder_reconciliation_witness :
    (specFireSuccess [⟨1, "x"⟩, ⟨2, "y"⟩, ⟨3, "z"⟩]
        (setFixedOrder [3, 1, 2] emptyFixedOrderStore)).objects
      = fixedOrderSort [3, 1, 2] [⟨1, "x"⟩, ⟨2, "y"⟩, ⟨3, "z"⟩]
    ∧ (specFireSuccess [⟨1, "x"⟩, ⟨2, "y"⟩, ⟨3, "z"⟩]
        (setFixedOrder [3, 1, 2] emptyFixedOrderStore)).objects
      = [⟨3, "z"⟩, ⟨1, "x"⟩, ⟨2, "y"⟩] := by
  constructor
  · exact (fixedOrder_reconciliation (setFixedOrder [3, 1, 2] emptyFixedOrderStore)
      [3, 1, 2] [⟨1, "x"⟩, ⟨2, "y"⟩, ⟨3, "z"⟩] rfl).1.1
  · exact (fixedOrder_reconciliation (setFixedOrder [3, 1, 2] emptyFixedOrderStore)
      [3, 1, 2] [⟨1, "x"⟩, ⟨2, "y"⟩, ⟨3, "z"⟩] rfl).2.2

/-! Round-trip lemmas for the state token (C5, modelled from the
spec).  The fuel measures below say how much fuel each parser needs on
a well-formed input; the parsers are always run with ample fuel. -/

/-- Fuel needed by `parseJVal` on an encoded value. -/
def jvalFuel : JVal → Nat
  | .list xs => xs.length + 1
  | _ => 0

/-- Fuel needed by `parseJVals` on an encoded tuple. -/
def jvalsFuel : List JVal → Nat
  | [] => 1
  | v :: vs => jvalFuel v + 1 + jvalsFuel vs

/-- Fuel needed by `parseFilters` on an encoded filters section. -/
def filtersFuel : List (List JVal) → Nat
  | [] => 1
  | f :: fs => jvalsFuel f + 1 + filtersFuel fs

/-- Fuel needed by `parsePairs` on an encoded params section. -/
def pairsFuel : JObj → Nat
  | [] => 1
  | kv :: rest => jvalFuel kv.2 + 1 + pairsFuel rest

/-- The length parser inverts the length encoder. -/
theorem parseNatU_enc (k : Nat) (rest : List Char) :
    parseNatU (natEnc k ++ rest) = some (k, rest) := by
  induction k with
  | zero => simp [natEnc, parseNatU]
  | succ k ih =>
    have hsh : natEnc (k + 1) ++ rest = '1' :: (natEnc k ++ rest) := by
      simp [natEnc, List.replicate_succ]
    rw [hsh, parseNatU, ih]

/-- The key parser inverts the key encoder. -/
theorem parseKey_enc (s : String) (rest : List Char) :
    parseKey (natEnc s.length ++ s.data ++ rest) = some (s, rest) := by
  unfold parseKey
  rw [List.append_assoc, parseNatU_enc]
  have hl : s.data.length = s.length := rfl
  dsimp only
  rw [if_pos (by rw [← hl]; simp)]
  rw [List.take_left' hl, List.drop_left' hl]

/-- The primitive parser inverts the primitive encoder. -/
theorem parsePrim_enc (p : Prim) (rest : List Char) :
    parsePrim (primEnc p ++ rest) = some (p, rest) := by
  cases p with
  | str s =>
    have hsh : primEnc (.str s) ++ rest = 's' :: (natEnc s.length ++ s.data ++ rest) := by
      simp [primEnc, List.append_assoc]
    rw [hsh, parsePrim, parseKey_enc]
  | num n =>
    by_cases h : 0 ≤ n
    · have hsh : primEnc (.num n) ++ rest = 'p' :: (natEnc n.toNat ++ rest) := by
        simp [primEnc, h]
      rw [hsh, parsePrim, parseNatU_enc]
      dsimp only
      rw [show Int.ofNat n.toNat = n from Int.toNat_of_nonneg h]
    · have hsh : primEnc (.num n) ++ rest = 'n' :: (natEnc (-n).toNat ++ rest) := by
        simp [primEnc, h]
      rw [hsh, parsePrim, parseNatU_enc]
      have h2 : (0 : Int) ≤ -n := by omega
      dsimp only
      rw [show Int.ofNat (-n).toNat = -n from Int.toNat_of_nonneg h2]
      simp
  | bool b => cases b <;> rfl
  | null => rfl
  | undefined => rfl

/-- The encoding of a primitive starts with a tag that is neither a
tuple nor a section terminator. -/
theorem primEnc_head (p : Prim) :
    ∃ c cs, primEnc p = c :: cs ∧ c ≠ 'e' ∧ c ≠ 'E' ∧ c ≠ 'l' := by
  cases p with
  | str s => exact ⟨'s', _, rfl, by decide, by decide, by decide⟩
  | num n =>
    by_cases h : 0 ≤ n
    · exact ⟨'p', natEnc n.toNat, by simp [primEnc, h], by decide, by decide, by decide⟩
    · exact ⟨'n', natEnc (-n).toNat, by simp [primEnc, h], by decide, by decide, by decide⟩
  | bool b =>
    cases b with
    | false => exact ⟨'f', [], rfl, by decide, by decide, by decide⟩
    | true => exact ⟨'t', [], rfl, by decide, by decide, by decide⟩
  | null => exact ⟨'z', [], rfl, by decide, by decide, by decide⟩
  | undefined => exact ⟨'u', [], rfl, by decide, by decide, by decide⟩

/-- The encoding of a dynamic value starts with a tag that is not a
terminator. -/
theorem jvalEnc_head (v : JVal) :
    ∃ c cs, jvalEnc v = c :: cs ∧ c ≠ 'e' ∧ c ≠ 'E' := by
  cases v with
  | str s => exact ⟨'s', _, rfl, by decide, by decide⟩
  | num n =>
    by_cases h : 0 ≤ n
    · exact ⟨'p', natEnc n.toNat, by simp [jvalEnc, h], by decide, by decide⟩
    · exact ⟨'n', natEnc (-n).toNat, by simp [jvalEnc, h], by decide, by decide⟩
  | bool b =>
    cases b with
    | false => exact ⟨'f', [], rfl, by decide, by decide⟩
    | true => exact ⟨'t', [], rfl, by decide, by decide⟩
  | null => exact ⟨'z', [], rfl, by decide, by decide⟩
  | undefined => exact ⟨'u', [], rfl, by decide, by decide⟩
  | list xs => exact ⟨'l', _, rfl, by decide, by decide⟩

/-- The encoding of a params entry starts with a length prefix, never
with a terminator. -/
theorem pairEnc_head (kv : String × JVal) :
    ∃ c cs, pairEnc kv = c :: cs ∧ c ≠ 'e' := by
  obtain ⟨k, v⟩ := kv
  unfold pairEnc natEnc
  cases h : k.length with
  | zero => exact ⟨':', k.data ++ jvalEnc v, by simp [h], by decide⟩
  | succ n =>
    exact ⟨'1', List.replicate n '1' ++ [':'] ++ k.data ++ jvalEnc v,
      by simp [h, List.replicate_succ, List.append_assoc], by decide⟩

/-- The primitive-list parser inverts the encoder given enough fuel. -/
theorem parsePrims_enc (xs : List Prim) :
    ∀ (rest : List Char) (fuel : Nat), xs.length + 1 ≤ fuel →
    parsePrims fuel (primsEnc xs ++ 'e' :: rest) = some (xs, rest) := by
  induction xs with
  | nil =>
    intro rest fuel hfuel
    cases fuel with
    | zero => simp at hfuel
    | succ fuel => simp [primsEnc, parsePrims]
  | cons p ps ih =>
    intro rest fuel hfuel
    cases fuel with
    | zero => simp at hfuel
    | succ fuel =>
      have hsh : primsEnc (p :: ps) ++ 'e' :: rest
          = primEnc p ++ (primsEnc ps ++ 'e' :: rest) := by
        simp [primsEnc, List.append_assoc]
      obtain ⟨c, cs, hpe, hce, _, _⟩ := primEnc_head p
      rw [hsh, parsePrims, if_neg (by rw [hpe]; simp [hce]), parsePrim_enc]
      dsimp only
      rw [ih rest fuel (by simp at hfuel; omega)]

/-- The value parser accepts any encoded primitive as the scalar it
denotes. -/
theorem parseJVal_prim (p : Prim) (rest : List Char) (fuel : Nat) :
    parseJVal fuel (primEnc p ++ rest) = some (primToJVal p, rest) := by
  obtain ⟨c, cs, hpe, _, _, hcl⟩ := primEnc_head p
  unfold parseJVal
  rw [if_neg (by rw [hpe]; simp [hcl]), parsePrim_enc]

/-- The value parser inverts the value encoder given enough fuel. -/
theorem parseJVal_enc (v : JVal) (rest : List Char) (fuel : Nat) (hfuel : jvalFuel v ≤ fuel) :
    parseJVal fuel (jvalEnc v ++ rest) = some (v, rest) := by
  cases v with
  | str s => exact parseJVal_prim (.str s) rest fuel
  | num n => exact parseJVal_prim (.num n) rest fuel
  | bool b =>
    cases b with
    | false => exact parseJVal_prim (.bool false) rest fuel
    | true => exact parseJVal_prim (.bool true) rest fuel
  | null => exact parseJVal_prim .null rest fuel
  | undefined => exact parseJVal_prim .undefined rest fuel
  | list xs =>
    have hsh : jvalEnc (.list xs) ++ rest = 'l' :: (primsEnc xs ++ 'e' :: rest) := by
      simp [jvalEnc, List.append_assoc]
    rw [hsh]
    unfold parseJVal
    rw [if_pos (by simp)]
    simp only [List.tail_cons]
    rw [parsePrims_enc xs rest fuel (by simpa [jvalFuel] using hfuel)]

/-- The tuple parser inverts the tuple encoder given enough fuel. -/
theorem parseJVals_enc (f : List JVal) :
    ∀ (rest : List Char) (fuel : Nat), jvalsFuel f ≤ fuel →
    parseJVals fuel (jvalsEnc f ++ 'e' :: rest) = some (f, rest) := by
  induction f with
  | nil =>
    intro rest fuel hfuel
    cases fuel with
    | zero => simp [jvalsFuel] at hfuel
    | succ fuel => simp [jvalsEnc, parseJVals]
  | cons v vs ih =>
    intro rest fuel hfuel
    cases fuel with
    | zero => simp [jvalsFuel] at hfuel
    | succ fuel =>
      have hsh : jvalsEnc (v :: vs) ++ 'e' :: rest
          = jvalEnc v ++ (jvalsEnc vs ++ 'e' :: rest) := by
        simp [jvalsEnc, List.append_assoc]
      obtain ⟨c, cs, hpe, hce, _⟩ := jvalEnc_head v
      have hb1 : jvalFuel v ≤ fuel := by simp [jvalsFuel] at hfuel; omega
      have hb2 : jvalsFuel vs ≤ fuel := by simp [jvalsFuel] at hfuel; omega
      rw [hsh, parseJVals, if_neg (by rw [hpe]; simp [hce]),
        parseJVal_enc v _ fuel hb1]
      dsimp only
      rw [ih rest fuel hb2]

/-- A filters chunk never starts with the section terminator. -/
theorem filtersEnc_chunk_head (f : List JVal) (tail : List Char) :
    ¬ (jvalsEnc f ++ 'e' :: tail).head? = some 'E' := by
  cases f with
  | nil => simp [jvalsEnc]
  | cons v vs =>
    obtain ⟨c, cs, hpe, _, hcE⟩ := jvalEnc_head v
    simp [jvalsEnc, hpe, hcE]

/-- The filters parser inverts the filters encoder given enough fuel. -/
theorem parseFilters_enc (fs : List (List JVal)) :
    ∀ (rest : List Char) (fuel : Nat), filtersFuel fs ≤ fuel →
    parseFilters fuel (filtersEnc fs ++ 'E' :: rest) = some (fs, rest) := by
  induction fs with
  | nil =>
    intro rest fuel hfuel
    cases fuel with
    | zero => simp [filtersFuel] at hfuel
    | succ fuel => simp [filtersEnc, parseFilters]
  | cons f fs ih =>
    intro rest fuel hfuel
    cases fuel with
    | zero => simp [filtersFuel] at hfuel
    | succ fuel =>
      have hsh : filtersEnc (f :: fs) ++ 'E' :: rest
          = jvalsEnc f ++ 'e' :: (filtersEnc fs ++ 'E' :: rest) := by
        simp [filtersEnc, List.append_assoc]
      have hb1 : jvalsFuel f ≤ fuel := by simp [filtersFuel] at hfuel; omega
      have hb2 : filtersFuel fs ≤ fuel := by simp [filtersFuel] at hfuel; omega
      rw [hsh, parseFilters, if_neg (filtersEnc_chunk_head f _),
        parseJVals_enc f _ fuel hb1]
      dsimp only
      rw [ih rest fuel hb2]

/-- The entry parser inverts the entry encoder given enough fuel. -/
theorem parsePair_enc (kv : String × JVal) (rest : List Char) (fuel : Nat)
    (hfuel : jvalFuel kv.2 ≤ fuel) :
    parsePair fuel (pairEnc kv ++ rest) = some (kv, rest) := by
  obtain ⟨k, v⟩ := kv
  have hsh : pairEnc (k, v) ++ rest = natEnc k.length ++ k.data ++ (jvalEnc v ++ rest) := by
    simp [pairEnc, List.append_assoc]
  rw [hsh]
  unfold parsePair
  rw [parseKey_enc]
  dsimp only
  rw [parseJVal_enc v rest fuel hfuel]

/-- The params parser inverts the params encoder given enough fuel. -/
theorem parsePairs_enc (ps : JObj) :
    ∀ (rest : List Char) (fuel : Nat), pairsFuel ps ≤ fuel →
    parsePairs fuel (pairsEnc ps ++ 'e' :: rest) = some (ps, rest) := by
  induction ps with
  | nil =>
    intro rest fuel hfuel
    cases fuel with
    | zero => simp [pairsFuel] at hfuel
    | succ fuel => simp [pairsEnc, parsePairs]
  | cons kv ps ih =>
    intro rest fuel hfuel
    cases fuel with
    | zero => simp [pairsFuel] at hfuel
    | succ fuel =>
      have hsh : pairsEnc (kv :: ps) ++ 'e' :: rest
          = pairEnc kv ++ (pairsEnc ps ++ 'e' :: rest) := by
        simp [pairsEnc, List.append_assoc]
      obtain ⟨c, cs, hpe, hce⟩ := pairEnc_head kv
      have hb1 : jvalFuel kv.2 ≤ fuel := by simp [pairsFuel] at hfuel; omega
      have hb2 : pairsFuel ps ≤ fuel := by simp [pairsFuel] at hfuel; omega
      rw [hsh, parsePairs, if_neg (by rw [hpe]; simp [hce]),
        parsePair_enc kv _ fuel hb1]
      dsimp only
      rw [ih rest fuel hb2]

/-- Primitive encodings are nonempty. -/
theorem primEnc_length_pos (p : Prim) : 1 ≤ (primEnc p).length := by
  obtain ⟨c, cs, hpe, _⟩ := primEnc_head p
  rw [hpe]
  simp

/-- A primitive list never encodes shorter than its length. -/
theorem primsEnc_length (xs : List Prim) : xs.length ≤ (primsEnc xs).length := by
  induction xs with
  | nil => simp [primsEnc]
  | cons p ps ih =>
    have h := primEnc_length_pos p
    simp only [primsEnc, List.length_append, List.length_cons]
    omega

/-- The fuel a value needs is below its encoding length. -/
theorem jvalEnc_length_fuel (v : JVal) : jvalFuel v + 1 ≤ (jvalEnc v).length := by
  cases v with
  | list xs =>
    have h := primsEnc_length xs
    simp only [jvalEnc, jvalFuel, List.length_cons, List.length_append,
      List.length_singleton]
    omega
  | str s => simp [jvalEnc, jvalFuel]
  | num n =>
    by_cases h : 0 ≤ n <;> simp [jvalEnc, jvalFuel, h]
  | bool b => cases b <;> simp [jvalEnc, jvalFuel]
  | null => simp [jvalEnc, jvalFuel]
  | undefined => simp [jvalEnc, jvalFuel]

/-- The fuel a tuple needs is below its encoding length plus one. -/
theorem jvalsFuel_le (f : List JVal) : jvalsFuel f ≤ (jvalsEnc f).length + 1 := by
  induction f with
  | nil => simp [jvalsFuel, jvalsEnc]
  | cons v vs ih =>
    have h1 := jvalEnc_length_fuel v
    simp only [jvalsFuel, jvalsEnc, List.length_append]
    omega

/-- The fuel a filters section needs is below twice its encoding
length plus one. -/
theorem filtersFuel_le (fs : List (List JVal)) :
    filtersFuel fs ≤ 2 * (filtersEnc fs).length + 1 := by
  induction fs with
  | nil => simp [filtersFuel, filtersEnc]
  | cons f fs ih =>
    have h1 := jvalsFuel_le f
    simp only [filtersFuel, filtersEnc, List.length_append, List.length_cons]
    omega

/-- An entry encoding exceeds its value encoding. -/
theorem pairEnc_length (kv : String × JVal) :
    (jvalEnc kv.2).length + 1 ≤ (pairEnc kv).length := by
  obtain ⟨k, v⟩ := kv
  simp only [pairEnc, natEnc, List.length_append, List.length_replicate,
    List.length_singleton]
  omega

/-- The fuel a params section needs is below twice its encoding length
plus one. -/
theorem pairsFuel_le (ps : JObj) : pairsFuel ps ≤ 2 * (pairsEnc ps).length + 1 := by
  induction ps with
  | nil => simp [pairsFuel, pairsEnc]
  | cons kv ps ih =>
    have h1 := jvalEnc_length_fuel kv.2
    have h2 := pairEnc_length kv
    simp only [pairsFuel, pairsEnc, List.length_append]
    omega

/-- Round trip of the full token: deserializing a serialized triple
gives the triple back. -/
theorem deserialize_serializeTriple (t : SerTriple) :
    deserialize (serializeTriple t) = t := by
  obtain ⟨ps, fs, pfs⟩ := t
  have hser : serializeTriple ⟨ps, fs, pfs⟩
      = pairsEnc ps ++ 'e' :: (filtersEnc fs ++ 'E' :: (filtersEnc pfs ++ ['E'])) := rfl
  rw [hser]
  unfold deserialize
  have hb1 : pairsFuel ps
      ≤ 2 * (pairsEnc ps ++ 'e' :: (filtersEnc fs ++ 'E' :: (filtersEnc pfs ++ ['E']))).length
        + 1 := by
    have h := pairsFuel_le ps
    simp only [List.length_append, List.length_cons]
    omega
  rw [parsePairs_enc ps _ _ hb1]
  dsimp only
  have hb2 : filtersFuel fs
      ≤ 2 * (filtersEnc fs ++ 'E' :: (filtersEnc pfs ++ ['E'])).length + 1 := by
    have h := filtersFuel_le fs
    simp only [List.length_append, List.length_cons]
    omega
  rw [parseFilters_enc fs _ _ hb2]
  dsimp only
  have hb3 : filtersFuel pfs ≤ 2 * (filtersEnc pfs ++ ['E']).length + 1 := by
    have h := filtersFuel_le pfs
    simp only [List.length_append, List.length_singleton]
    omega
  rw [show filtersEnc pfs ++ ['E'] = filtersEnc pfs ++ 'E' :: [] from rfl,
    parseFilters_enc pfs _ _ hb3]

/-- C5: serializing any state and deserializing the token reproduces
the `params`/`filters`/`persistentFilters` structure exactly (the
round-trip law), while malformed, truncated or empty tokens
deserialize to the empty structure instead of raising. -/
theorem serialize_roundtrip :
    (∀ st : ParametronData,
      deserialize (serializeState st) = ⟨st.params, st.filters, st.persistentFilters⟩)
    ∧ deserialize ['x'] = emptySer
    ∧ deserialize ('e' :: ['E']) = emptySer
    ∧ deserialize [] = emptySer := by
  refine ⟨?_, rfl, rfl, rfl⟩
  intro st
  exact deserialize_serializeTriple ⟨st.params, st.filters, st.persistentFilters⟩

end Parametron
